import Mathlib

set_option linter.dupNamespace false

/-!
# Verification of the radix-2 Cooley–Tukey FFT benchmark core

This file embeds the Go FFT core (`fft/complex.go`, `fft/cooley_tukey.go`),
the structurally parallel Swift port, and the Go CLI harness (`main.go`) as
Lean definitions over the real numbers, and proves the specified properties
of the transform.

Floating-point `float64` values are modelled as real numbers `ℝ`; every
arithmetic operation of the source is translated literally.  The mutually
recursive in-place transform `fft` recurses on sub-slices whose length is
the half of the caller's, but diverges on an empty slice, so it is embedded
with an explicit fuel parameter: `none` means the recursion depth exceeded
the fuel.  A call that terminates returns `some` of the final buffer
contents for every sufficiently large fuel.
-/

namespace fft

/-- The `Complex` struct of `fft/complex.go`: two float64 fields. -/
structure Complex where
  Real : ℝ
  Imag : ℝ

theorem Complex.ext' {a b : Complex} (h1 : a.Real = b.Real) (h2 : a.Imag = b.Imag) :
    a = b := by
  cases a; cases b; simp_all

/-- Source: `func (c Complex) Add(other Complex) Complex`. -/
noncomputable def Complex.Add (c other : Complex) : Complex :=
  ⟨c.Real + other.Real, c.Imag + other.Imag⟩

/-- Source: `func (c Complex) Sub(other Complex) Complex`. -/
noncomputable def Complex.Sub (c other : Complex) : Complex :=
  ⟨c.Real - other.Real, c.Imag - other.Imag⟩

/-- Source: `func (c Complex) Mul(other Complex) Complex`. -/
noncomputable def Complex.Mul (c other : Complex) : Complex :=
  ⟨c.Real * other.Real - c.Imag * other.Imag, c.Real * other.Imag + c.Imag * other.Real⟩

/-- Source: `func (c Complex) MulScalar(scalar float64) Complex`. -/
noncomputable def Complex.MulScalar (c : Complex) (scalar : ℝ) : Complex :=
  ⟨c.Real * scalar, c.Imag * scalar⟩

/-- Interpretation of the Go struct as a mathematical complex number. -/
def toC (c : Complex) : ℂ := ⟨c.Real, c.Imag⟩

/-- The zero value, used as the out-of-range default of list indexing
(every indexing of the source is in bounds, so the default is never read). -/
noncomputable def c0 : Complex := ⟨0, 0⟩

/-- Iterated power of a complex value by repeated `Mul`, starting from `(1,0)`:
the value of the running twiddle power `w` after `i` loop iterations. -/
noncomputable def Complex.Pow (c : Complex) : ℕ → Complex
  | 0 => ⟨1, 0⟩
  | i + 1 => (Complex.Pow c i).Mul c

/-- The even-position sub-sequence built by the split loop of `fft`:
`a0 = append(a0, arr[2*i])` for `i` in `range n/2`. -/
noncomputable def evens (arr : List Complex) : List Complex :=
  (List.range (arr.length / 2)).map fun i => arr.getD (2 * i) c0

/-- The odd-position sub-sequence built by the split loop of `fft`:
`a1 = append(a1, arr[2*i+1])` for `i` in `range n/2`. -/
noncomputable def odds (arr : List Complex) : List Complex :=
  (List.range (arr.length / 2)).map fun i => arr.getD (2 * i + 1) c0

/-- The twiddle base of `fft`: `ang := -2π/n; wn := Complex{cos(ang), sin(ang)}`. -/
noncomputable def wn (n : ℕ) : Complex :=
  ⟨Real.cos (-2 * Real.pi / n), Real.sin (-2 * Real.pi / n)⟩

/-- The combine loop of `fft`, returning the first and second half of the
rewritten buffer.  `w` is the running twiddle power; in each iteration
`p := a0[i]`, `q := w.Mul(a1[i])`, `arr[i] = p.Add(q)`,
`arr[i+n/2] = p.Sub(q)`, `w = w.Mul(wn)`. -/
noncomputable def combineLoop (wn : Complex) :
    List Complex → List Complex → Complex → List Complex × List Complex
  | p :: a0, q :: a1, w =>
      (p.Add (w.Mul q) :: (combineLoop wn a0 a1 (w.Mul wn)).1,
       p.Sub (w.Mul q) :: (combineLoop wn a0 a1 (w.Mul wn)).2)
  | _, _, _ => ([], [])

/-- The recursive unnormalized transform `func fft(arr []Complex)` of
`fft/cooley_tukey.go`, with explicit fuel bounding the recursion depth.
The buffer positions `2*(n/2) ≤ i < n` (the last element when `n` is odd)
are never written by the combine loop and keep their original values. -/
noncomputable def fft : ℕ → List Complex → Option (List Complex)
  | 0, _ => none
  | fuel + 1, arr =>
      if arr.length = 1 then some arr
      else
        match fft fuel (evens arr), fft fuel (odds arr) with
        | some a0, some a1 =>
            some ((combineLoop (wn arr.length) a0 a1 ⟨1, 0⟩).1 ++
                  (combineLoop (wn arr.length) a0 a1 ⟨1, 0⟩).2 ++
                  arr.drop (2 * (arr.length / 2)))
        | _, _ => none

/-- The public transform `func FFT(arr []Complex)`: run `fft`, then multiply
every element by `factor := 1.0 / math.Sqrt(float64(len(arr)))` once. -/
noncomputable def FFT (fuel : ℕ) (arr : List Complex) : Option (List Complex) :=
  (fft fuel arr).map fun out =>
    out.map fun c => c.MulScalar (1 / Real.sqrt arr.length)

/-- Termination: `FFT` returns on some fuel; the fuel family exhausts every finite
recursion depth, so this is exactly termination of the source recursion. -/
def Terminates (arr : List Complex) : Prop :=
  ∃ fuel out, FFT fuel arr = some out

theorem Complex.Mul_one (c : Complex) : c.Mul ⟨1, 0⟩ = c := by
  apply Complex.ext' <;> simp [Complex.Mul]

theorem Complex.one_Mul (c : Complex) : Complex.Mul ⟨1, 0⟩ c = c := by
  apply Complex.ext' <;> simp [Complex.Mul]

theorem Complex.Mul_assoc (a b c : Complex) : (a.Mul b).Mul c = a.Mul (b.Mul c) := by
  apply Complex.ext' <;> (simp only [Complex.Mul]; ring)

theorem Complex.Mul_comm (a b : Complex) : a.Mul b = b.Mul a := by
  apply Complex.ext' <;> (simp only [Complex.Mul]; ring)

theorem getD_range_map {α : Type} {m i : ℕ} (f : ℕ → α) (d : α) (h : i < m) :
    ((List.range m).map f).getD i d = f i := by
  simp [List.getD_eq_getElem?_getD, List.getElem?_map, List.getElem?_range h]

@[simp] theorem evens_length (arr : List Complex) : (evens arr).length = arr.length / 2 := by
  simp [evens]

@[simp] theorem odds_length (arr : List Complex) : (odds arr).length = arr.length / 2 := by
  simp [odds]

theorem evens_getD (arr : List Complex) (i : ℕ) (h : i < arr.length / 2) :
    (evens arr).getD i c0 = arr.getD (2 * i) c0 :=
  getD_range_map _ _ h

theorem odds_getD (arr : List Complex) (i : ℕ) (h : i < arr.length / 2) :
    (odds arr).getD i c0 = arr.getD (2 * i + 1) c0 :=
  getD_range_map _ _ h

theorem combineLoop_length (twiddle : Complex) :
    ∀ (a0 a1 : List Complex) (w : Complex),
      (combineLoop twiddle a0 a1 w).1.length = min a0.length a1.length ∧
      (combineLoop twiddle a0 a1 w).2.length = min a0.length a1.length
  | [], a1, w => by cases a1 <;> simp [combineLoop]
  | p :: a0, [], w => by simp [combineLoop]
  | p :: a0, q :: a1, w => by
      have ih := combineLoop_length twiddle a0 a1 (w.Mul twiddle)
      simp [combineLoop, ih.1, ih.2, Nat.succ_min_succ]

/-- Running-power invariant of the combine loop: starting the loop with
multiplier `w`, after `i` iterations the multiplier is `w * twiddle^i`, so
output `i` of the first half is `a0[i] + (w * twiddle^i) * a1[i]` and of the
second half `a0[i] - (w * twiddle^i) * a1[i]`. -/
theorem combineLoop_getD (twiddle : Complex) :
    ∀ (a0 a1 : List Complex) (w : Complex) (i : ℕ),
      i < a0.length → i < a1.length →
      (combineLoop twiddle a0 a1 w).1.getD i c0 =
        (a0.getD i c0).Add ((w.Mul (twiddle.Pow i)).Mul (a1.getD i c0)) ∧
      (combineLoop twiddle a0 a1 w).2.getD i c0 =
        (a0.getD i c0).Sub ((w.Mul (twiddle.Pow i)).Mul (a1.getD i c0))
  | p :: a0, q :: a1, w, 0, _, _ => by
      simp [combineLoop, Complex.Pow, Complex.Mul_one]
  | p :: a0, q :: a1, w, i + 1, h0, h1 => by
      have ih := combineLoop_getD twiddle a0 a1 (w.Mul twiddle) i
        (by simpa using h0) (by simpa using h1)
      have hw : (w.Mul twiddle).Mul (twiddle.Pow i) = w.Mul (twiddle.Pow (i + 1)) := by
        rw [Complex.Mul_assoc, Complex.Pow, Complex.Mul_comm twiddle _]
      simpa [combineLoop, hw] using ih

theorem fft_length :
    ∀ (fuel : ℕ) (arr out : List Complex), fft fuel arr = some out → out.length = arr.length
  | 0, arr, out => by simp [fft]
  | fuel + 1, arr, out => by
      rw [fft]
      split
      · rintro h
        simp_all
      · cases h0 : fft fuel (evens arr) with
        | none => simp
        | some a0 =>
          cases h1 : fft fuel (odds arr) with
          | none => simp
          | some a1 =>
            have l0 : a0.length = arr.length / 2 := by
              simpa using fft_length fuel (evens arr) a0 h0
            have l1 : a1.length = arr.length / 2 := by
              simpa using fft_length fuel (odds arr) a1 h1
            have lc := combineLoop_length (wn arr.length) a0 a1 ⟨1, 0⟩
            rintro ⟨rfl⟩
            simp only [List.length_append, List.length_drop, lc.1, lc.2, l0, l1]
            omega

/-- On every buffer of length at least one, `fft` returns within fuel equal
to the length: every recursive call strictly halves the length, which never
reaches zero. -/
theorem fft_some :
    ∀ (fuel : ℕ) (arr : List Complex), 1 ≤ arr.length → arr.length ≤ fuel →
      ∃ out, fft fuel arr = some out
  | 0, arr => by omega
  | fuel + 1, arr => by
      intro h1 hf
      rw [fft]
      by_cases hone : arr.length = 1
      · exact ⟨arr, by simp [hone]⟩
      · have h2 : 2 ≤ arr.length := by omega
        obtain ⟨a0, ha0⟩ := fft_some fuel (evens arr) (by simp; omega) (by simp; omega)
        obtain ⟨a1, ha1⟩ := fft_some fuel (odds arr) (by simp; omega) (by simp; omega)
        rw [if_neg hone, ha0, ha1]
        exact ⟨_, rfl⟩

/-- Modelled from the spec (§4.2 step 4): the combine step in closed form,
output `i` is `even[i] + twiddle^i * odd[i]` and output `i + n/2` is
`even[i] - twiddle^i * odd[i]`, with no normalization. -/
noncomputable def specCombine (n : ℕ) (a0 a1 : List Complex) : List Complex :=
  ((List.range (n / 2)).map fun i =>
      (a0.getD i c0).Add (((wn n).Pow i).Mul (a1.getD i c0))) ++
  ((List.range (n / 2)).map fun i =>
      (a0.getD i c0).Sub (((wn n).Pow i).Mul (a1.getD i c0)))

/-- Modelled from the spec (§4.2 steps 1–4): the unnormalized recursive
radix-2 decimation-in-time transform — base case of length 1, even/odd
split by index parity, recursive transforms, closed-form combine — with no
scaling anywhere. -/
noncomputable def fftSpec (arr : List Complex) : List Complex :=
  if h : arr.length ≤ 1 then arr
  else specCombine arr.length (fftSpec (evens arr)) (fftSpec (odds arr))
termination_by arr.length
decreasing_by
  · simp only [evens_length]; omega
  · simp only [odds_length]; omega

@[simp] theorem specCombine_length (n : ℕ) (a0 a1 : List Complex) :
    (specCombine n a0 a1).length = n / 2 + n / 2 := by
  simp [specCombine]

theorem fftSpec_length (arr : List Complex) (h : arr.length % 2 = 0 ∨ arr.length ≤ 1) :
    (fftSpec arr).length = arr.length := by
  rw [fftSpec]
  split
  · rfl
  · simp only [specCombine_length]
    omega

theorem list_ext_getD {α : Type} (l1 l2 : List α) (d : α) (hlen : l1.length = l2.length)
    (h : ∀ i, i < l1.length → l1.getD i d = l2.getD i d) : l1 = l2 := by
  apply List.ext_getElem hlen
  intro i h1 h2
  have := h i h1
  rwa [List.getD_eq_getElem _ _ h1, List.getD_eq_getElem _ _ h2] at this

/-- The running-product combine loop, started at `w = (1,0)`, computes
exactly the closed-form combine of the spec. -/
theorem combineLoop_eq_specCombine (n : ℕ) (a0 a1 : List Complex)
    (h0 : a0.length = n / 2) (h1 : a1.length = n / 2) :
    (combineLoop (wn n) a0 a1 ⟨1, 0⟩).1 ++ (combineLoop (wn n) a0 a1 ⟨1, 0⟩).2 =
      specCombine n a0 a1 := by
  have lc := combineLoop_length (wn n) a0 a1 ⟨1, 0⟩
  have lc1 : (combineLoop (wn n) a0 a1 ⟨1, 0⟩).1.length = n / 2 := by omega
  have lc2 : (combineLoop (wn n) a0 a1 ⟨1, 0⟩).2.length = n / 2 := by omega
  have lm : ((List.range (n / 2)).map fun i =>
      (a0.getD i c0).Add (((wn n).Pow i).Mul (a1.getD i c0))).length = n / 2 := by simp
  apply list_ext_getD _ _ c0
  · simp [lc1, lc2, specCombine]
  · intro i hi
    have hlen : i < n / 2 + n / 2 := by
      simp only [List.length_append, lc1, lc2] at hi
      omega
    rw [specCombine]
    rcases Nat.lt_or_ge i (n / 2) with hfst | hsnd
    · have hcl := combineLoop_getD (wn n) a0 a1 ⟨1, 0⟩ i (by omega) (by omega)
      rw [List.getD_append _ _ _ _ (by omega), List.getD_append _ _ _ _ (by omega),
        hcl.1, Complex.one_Mul, getD_range_map _ _ hfst]
    · have hi2 : i - n / 2 < n / 2 := by omega
      have hcl := combineLoop_getD (wn n) a0 a1 ⟨1, 0⟩ (i - n / 2) (by omega) (by omega)
      rw [List.getD_append_right _ _ _ _ (by omega), List.getD_append_right _ _ _ _ (by omega),
        lc1, lm, hcl.2, Complex.one_Mul, getD_range_map _ _ hi2]


/-- For every power-of-two length and sufficient fuel, the source's
recursive `fft` computes exactly the spec's unnormalized transform. -/
theorem fft_eq_fftSpec :
    ∀ (fuel k : ℕ) (arr : List Complex), arr.length = 2 ^ k → arr.length ≤ fuel →
      fft fuel arr = some (fftSpec arr)
  | 0, k, arr => by
      intro h hf
      exfalso
      have := Nat.one_le_two_pow (n := k)
      omega
  | fuel + 1, k, arr => by
      intro h hf
      match k with
      | 0 =>
        rw [fft, fftSpec]
        simp at h
        simp [h]
      | k + 1 =>
        have h2 : 2 ≤ arr.length := by
          rw [h]
          calc 2 = 2 ^ 1 := rfl
          _ ≤ 2 ^ (k + 1) := Nat.pow_le_pow_right (by omega) (by omega)
        have hhalf : arr.length / 2 = 2 ^ k := by
          rw [h, Nat.pow_succ, Nat.mul_div_cancel _ (by omega : (0:ℕ) < 2)]
        have he : (evens arr).length = 2 ^ k := by simp [hhalf]
        have ho : (odds arr).length = 2 ^ k := by simp [hhalf]
        have hfe : (evens arr).length ≤ fuel := by
          simp only [evens_length]; omega
        have hfo : (odds arr).length ≤ fuel := by
          simp only [odds_length]; omega
        have ih0 := fft_eq_fftSpec fuel k (evens arr) he hfe
        have ih1 := fft_eq_fftSpec fuel k (odds arr) ho hfo
        rw [fft, if_neg (by omega)]
        simp only [ih0, ih1]
        have heven : arr.length % 2 = 0 := by
          rw [h]
          simp [Nat.pow_succ, Nat.mul_mod_left]
        have l0 : (fftSpec (evens arr)).length = arr.length / 2 := by
          rw [fftSpec_length _ (by rw [he]; rcases k with _ | k <;> simp [Nat.pow_succ])]
          simp
        have l1 : (fftSpec (odds arr)).length = arr.length / 2 := by
          rw [fftSpec_length _ (by rw [ho]; rcases k with _ | k <;> simp [Nat.pow_succ])]
          simp
        rw [show (2 * (arr.length / 2)) = arr.length by omega, List.drop_length,
          List.append_nil]
        have hunfold : fftSpec arr =
            specCombine arr.length (fftSpec (evens arr)) (fftSpec (odds arr)) := by
          rw [fftSpec, dif_neg (by omega : ¬ arr.length ≤ 1)]
        rw [combineLoop_eq_specCombine arr.length _ _ l0 l1, ← hunfold]

theorem fft_nil_none : ∀ fuel : ℕ, fft fuel ([] : List Complex) = none
  | 0 => by rw [fft]
  | fuel + 1 => by
      rw [fft, if_neg (by simp), show evens ([] : List Complex) = [] by simp [evens],
        fft_nil_none fuel]

/-- C1: for every power-of-two length, the public `FFT` is the unnormalized
recursive transform (the spec's steps 1–4, with no per-level scaling)
followed by one global multiplication of every element by `1/√n`:
the inner `fft` produces the unnormalized result, and the wrapper applies
the factor exactly once, at the outermost call. -/
theorem FFT_normalizes_once (fuel k : ℕ) (arr : List Complex)
    (hlen : arr.length = 2 ^ k) (hfuel : arr.length ≤ fuel) :
    fft fuel arr = some (fftSpec arr) ∧
    FFT fuel arr = some ((fftSpec arr).map fun c =>
      c.MulScalar (1 / Real.sqrt arr.length)) := by
  have h := fft_eq_fftSpec fuel k arr hlen hfuel
  exact ⟨h, by rw [FFT, h, Option.map_some']⟩

theorem FFT_normalizes_once_witness :
    (([⟨1, 0⟩, ⟨0, 0⟩] : List Complex).length = 2 ^ 1 ∧
     ([⟨1, 0⟩, ⟨0, 0⟩] : List Complex).length ≤ 2) ∧
    (fft 2 [⟨1, 0⟩, ⟨0, 0⟩] = some (fftSpec [⟨1, 0⟩, ⟨0, 0⟩]) ∧
     FFT 2 [⟨1, 0⟩, ⟨0, 0⟩] = some ((fftSpec [⟨1, 0⟩, ⟨0, 0⟩]).map fun c =>
       c.MulScalar (1 / Real.sqrt ([⟨1, 0⟩, ⟨0, 0⟩] : List Complex).length))) :=
  ⟨⟨by norm_num, by norm_num⟩, FFT_normalizes_once 2 1 _ (by norm_num) (by norm_num)⟩

theorem sqrt_four : Real.sqrt 4 = 2 := by
  rw [show (4:ℝ) = 2 ^ 2 by norm_num, Real.sqrt_sq (by norm_num : (0:ℝ) ≤ 2)]

/-- C2: the length-4 unit impulse `[(1,0),(0,0),(0,0),(0,0)]` transforms to
the constant sequence whose four elements all equal `(1/2, 0)`. -/
theorem FFT_unit_impulse_four :
    FFT 4 ([⟨1, 0⟩, ⟨0, 0⟩, ⟨0, 0⟩, ⟨0, 0⟩] : List Complex) =
      some [⟨1/2, 0⟩, ⟨1/2, 0⟩, ⟨1/2, 0⟩, ⟨1/2, 0⟩] := by
  have hev : evens ([⟨1, 0⟩, ⟨0, 0⟩, ⟨0, 0⟩, ⟨0, 0⟩] : List Complex) = [⟨1, 0⟩, ⟨0, 0⟩] := by
    norm_num [evens, List.range_succ]
  have hod : odds ([⟨1, 0⟩, ⟨0, 0⟩, ⟨0, 0⟩, ⟨0, 0⟩] : List Complex) = [⟨0, 0⟩, ⟨0, 0⟩] := by
    norm_num [odds, List.range_succ]
  have h10 : fft 3 ([⟨1, 0⟩, ⟨0, 0⟩] : List Complex) = some [⟨1, 0⟩, ⟨1, 0⟩] := by
    norm_num [fft, evens, odds, List.range_succ, combineLoop,
      Complex.Add, Complex.Sub, Complex.Mul]
  have h00 : fft 3 ([⟨0, 0⟩, ⟨0, 0⟩] : List Complex) = some [⟨0, 0⟩, ⟨0, 0⟩] := by
    norm_num [fft, evens, odds, List.range_succ, combineLoop,
      Complex.Add, Complex.Sub, Complex.Mul]
  have hmid : fft 4 ([⟨1, 0⟩, ⟨0, 0⟩, ⟨0, 0⟩, ⟨0, 0⟩] : List Complex) =
      some [⟨1, 0⟩, ⟨1, 0⟩, ⟨1, 0⟩, ⟨1, 0⟩] := by
    rw [fft, if_neg (by norm_num), hev, hod, h10, h00]
    norm_num [combineLoop, Complex.Add, Complex.Sub, Complex.Mul]
  rw [FFT, hmid, Option.map_some']
  norm_num [Complex.MulScalar, sqrt_four]

/-- C3: the four arithmetic operations compute exactly the componentwise
formulas of the spec, and agree with standard complex-number algebra under
the interpretation `toC` into `ℂ`. -/
theorem Complex_ops_componentwise (a b : Complex) (s : ℝ) :
    a.Add b = ⟨a.Real + b.Real, a.Imag + b.Imag⟩ ∧
    a.Sub b = ⟨a.Real - b.Real, a.Imag - b.Imag⟩ ∧
    a.Mul b = ⟨a.Real * b.Real - a.Imag * b.Imag, a.Real * b.Imag + a.Imag * b.Real⟩ ∧
    a.MulScalar s = ⟨a.Real * s, a.Imag * s⟩ ∧
    toC (a.Add b) = toC a + toC b ∧
    toC (a.Sub b) = toC a - toC b ∧
    toC (a.Mul b) = toC a * toC b ∧
    toC (a.MulScalar s) = toC a * (s : ℂ) := by
  refine ⟨rfl, rfl, rfl, rfl, ?_, ?_, ?_, ?_⟩ <;>
    simp [toC, Complex.Add, Complex.Sub, Complex.Mul, Complex.MulScalar, Complex.ext_iff]

/-- C4 counterexample: on the empty input the recursion of `fft` never
reaches its base case — it calls itself on the empty split forever — so no
recursion depth (fuel) suffices and `FFT` of the empty sequence diverges
instead of returning. -/
theorem FFT_empty_diverges : ¬ Terminates [] := by
  rintro ⟨fuel, out, hout⟩
  rw [FFT, fft_nil_none fuel] at hout
  simp at hout

/-- C4 (amended): for every input of length at least 1 — power of two or
not — `FFT` terminates normally and returns an output; fuel equal to the
input length always suffices.  Only the empty input diverges. -/
theorem FFT_terminates_of_nonempty (arr : List Complex) (h : 1 ≤ arr.length) :
    ∃ out, FFT arr.length arr = some out := by
  obtain ⟨mid, hmid⟩ := fft_some arr.length arr h le_rfl
  refine ⟨mid.map fun c => c.MulScalar (1 / Real.sqrt arr.length), ?_⟩
  rw [FFT, hmid, Option.map_some']

theorem FFT_terminates_of_nonempty_witness :
    1 ≤ ([⟨1, 0⟩, ⟨0, 0⟩, ⟨0, 0⟩] : List Complex).length ∧
    ∃ out, FFT 3 ([⟨1, 0⟩, ⟨0, 0⟩, ⟨0, 0⟩] : List Complex) = some out :=
  ⟨by norm_num, FFT_terminates_of_nonempty _ (by norm_num)⟩

/-- C5: the transform of a single-element sequence is the identity — the
recursion returns it unchanged and the outer `1/√1` scaling is trivial. -/
theorem FFT_singleton_identity (c : Complex) (fuel : ℕ) :
    FFT (fuel + 1) [c] = some [c] := by
  rw [FFT, fft, if_pos (by simp)]
  simp [Complex.MulScalar]

/-- C6: for a buffer of even length `n ≥ 2`, `evens`/`odds` are the
order-preserving subsequences of positions `2i` and `2i+1`; and whenever
the two recursive calls return `b0` and `b1`, the combine loop writes
`b0[i] + wn^i * b1[i]` to position `i` and `b0[i] - wn^i * b1[i]` to
position `i + n/2`, the running power `w` after `i` iterations being
`wn^i` (with `wn = (cos(-2π/n), sin(-2π/n))`). -/
theorem fft_combine_loop_invariant (fuel n i : ℕ) (arr b0 b1 : List Complex)
    (hn : arr.length = n) (h2 : 2 ≤ n) (he : n % 2 = 0)
    (h0 : fft fuel (evens arr) = some b0)
    (h1 : fft fuel (odds arr) = some b1)
    (hi : i < n / 2) :
    (evens arr).getD i c0 = arr.getD (2 * i) c0 ∧
    (odds arr).getD i c0 = arr.getD (2 * i + 1) c0 ∧
    ∃ out, fft (fuel + 1) arr = some out ∧
      out.getD i c0 = (b0.getD i c0).Add (((wn n).Pow i).Mul (b1.getD i c0)) ∧
      out.getD (i + n / 2) c0 = (b0.getD i c0).Sub (((wn n).Pow i).Mul (b1.getD i c0)) := by
  subst hn
  have lb0 : b0.length = arr.length / 2 := by simpa using fft_length fuel (evens arr) b0 h0
  have lb1 : b1.length = arr.length / 2 := by simpa using fft_length fuel (odds arr) b1 h1
  have lc := combineLoop_length (wn arr.length) b0 b1 ⟨1, 0⟩
  have lc1 : (combineLoop (wn arr.length) b0 b1 ⟨1, 0⟩).1.length = arr.length / 2 := by omega
  have lc2 : (combineLoop (wn arr.length) b0 b1 ⟨1, 0⟩).2.length = arr.length / 2 := by omega
  refine ⟨evens_getD arr i hi, odds_getD arr i hi, ?_⟩
  rw [fft, if_neg (by omega), h0, h1]
  have hcl := combineLoop_getD (wn arr.length) b0 b1 ⟨1, 0⟩ i (by omega) (by omega)
  refine ⟨_, rfl, ?_, ?_⟩
  · rw [List.getD_append _ _ _ _ (by simp only [List.length_append, lc1, lc2]; omega),
      List.getD_append _ _ _ _ (by omega), hcl.1, Complex.one_Mul]
  · rw [List.getD_append _ _ _ _ (by simp only [List.length_append, lc1, lc2]; omega),
      List.getD_append_right _ _ _ _ (by omega), lc1,
      show i + arr.length / 2 - arr.length / 2 = i by omega, hcl.2, Complex.one_Mul]

theorem fft_combine_loop_invariant_witness :
    (evens ([⟨1, 0⟩, ⟨2, 0⟩] : List Complex)).getD 0 c0 =
      ([⟨1, 0⟩, ⟨2, 0⟩] : List Complex).getD 0 c0 ∧
    (odds ([⟨1, 0⟩, ⟨2, 0⟩] : List Complex)).getD 0 c0 =
      ([⟨1, 0⟩, ⟨2, 0⟩] : List Complex).getD 1 c0 ∧
    ∃ out, fft 2 ([⟨1, 0⟩, ⟨2, 0⟩] : List Complex) = some out ∧
      out.getD 0 c0 = (([⟨1, 0⟩] : List Complex).getD 0 c0).Add
        (((wn 2).Pow 0).Mul (([⟨2, 0⟩] : List Complex).getD 0 c0)) ∧
      out.getD 1 c0 = (([⟨1, 0⟩] : List Complex).getD 0 c0).Sub
        (((wn 2).Pow 0).Mul (([⟨2, 0⟩] : List Complex).getD 0 c0)) :=
  fft_combine_loop_invariant 1 2 0 [⟨1, 0⟩, ⟨2, 0⟩] [⟨1, 0⟩] [⟨2, 0⟩] rfl (by norm_num)
    (by norm_num) (by norm_num [fft, evens, List.range_succ])
    (by norm_num [fft, odds, List.range_succ]) (by norm_num)

/-- C7: whenever `FFT` returns, the output occupies exactly as many
positions as the input: the transform never changes the length. -/
theorem FFT_preserves_length (fuel : ℕ) (arr out : List Complex)
    (h : FFT fuel arr = some out) : out.length = arr.length := by
  rw [FFT, Option.map_eq_some'] at h
  obtain ⟨mid, hmid, rfl⟩ := h
  simp [fft_length fuel arr mid hmid]

theorem FFT_preserves_length_witness :
    ([(⟨1, 0⟩ : Complex)]).length = ([(⟨1, 0⟩ : Complex)]).length :=
  FFT_preserves_length 1 [⟨1, 0⟩] [⟨1, 0⟩] (by rw [FFT, fft, if_pos (by simp)]; simp [Complex.MulScalar])

end fft

namespace swift

/-- The `Complex` struct of the Swift port: two `Double` fields. -/
structure Complex where
  real : ℝ
  imag : ℝ

/-- Source: `static func + (l: Complex, r: Complex)`. -/
noncomputable instance : Add Complex :=
  ⟨fun l r => ⟨l.real + r.real, l.imag + r.imag⟩⟩

/-- Source: `static func - (l: Complex, r: Complex)`. -/
noncomputable instance : Sub Complex :=
  ⟨fun l r => ⟨l.real - r.real, l.imag - r.imag⟩⟩

/-- Source: `static func * (l: Complex, r: Complex)`. -/
noncomputable instance : Mul Complex :=
  ⟨fun l r => ⟨l.real * r.real - l.imag * r.imag, l.real * r.imag + l.imag * r.real⟩⟩

/-- Source: `static func * (l: Complex, r: Double)`. -/
noncomputable def Complex.smul (l : Complex) (r : ℝ) : Complex :=
  ⟨l.real * r, l.imag * r⟩

/-- Out-of-range indexing default; every indexing of the source is in bounds. -/
noncomputable def czero : Complex := ⟨0, 0⟩

/-- Split loop of the nested `_fft`: `a0.append(arr[2 * i])`. -/
noncomputable def evens (arr : List Complex) : List Complex :=
  (List.range (arr.length / 2)).map fun i => arr.getD (2 * i) czero

/-- Split loop of the nested `_fft`: `a1.append(arr[2 * i + 1])`. -/
noncomputable def odds (arr : List Complex) : List Complex :=
  (List.range (arr.length / 2)).map fun i => arr.getD (2 * i + 1) czero

/-- Source: `let ang = -2.0 * Double.pi / Double(n); let wn = Complex(cos(ang), sin(ang))`. -/
noncomputable def wn (n : ℕ) : Complex :=
  ⟨Real.cos (-2 * Real.pi / n), Real.sin (-2 * Real.pi / n)⟩

/-- The combine loop of the nested `_fft`: `let q = w * a1[i];
arr[i] = p + q; arr[i + n/2] = p - q; w = w * wn`. -/
noncomputable def combineLoop (wn : Complex) :
    List Complex → List Complex → Complex → List Complex × List Complex
  | p :: a0, q :: a1, w =>
      ((p + w * q) :: (combineLoop wn a0 a1 (w * wn)).1,
       (p - w * q) :: (combineLoop wn a0 a1 (w * wn)).2)
  | _, _, _ => ([], [])

/-- The nested recursive `_fft` of the Swift port, with explicit fuel. -/
noncomputable def fftAux : ℕ → List Complex → Option (List Complex)
  | 0, _ => none
  | fuel + 1, arr =>
      if arr.length = 1 then some arr
      else
        match fftAux fuel (evens arr), fftAux fuel (odds arr) with
        | some a0, some a1 =>
            some ((combineLoop (wn arr.length) a0 a1 ⟨1, 0⟩).1 ++
                  (combineLoop (wn arr.length) a0 a1 ⟨1, 0⟩).2 ++
                  arr.drop (2 * (arr.length / 2)))
        | _, _ => none

/-- Source: `public func fft(_ arr: inout [Complex])`: run `_fft`, then scale every
element by `1.0 / Double(arr.count).squareRoot()`. -/
noncomputable def fft (fuel : ℕ) (arr : List Complex) : Option (List Complex) :=
  (fftAux fuel arr).map fun out =>
    out.map fun c => c.smul (1 / Real.sqrt arr.length)

end swift

/-- The field-for-field translation between the Go and the Swift complex
structs. -/
def ofGo (c : fft.Complex) : swift.Complex := ⟨c.Real, c.Imag⟩

theorem ofGo_Add (a b : fft.Complex) : ofGo (a.Add b) = ofGo a + ofGo b := rfl

theorem ofGo_Sub (a b : fft.Complex) : ofGo (a.Sub b) = ofGo a - ofGo b := rfl

theorem ofGo_Mul (a b : fft.Complex) : ofGo (a.Mul b) = ofGo a * ofGo b := rfl

theorem ofGo_smul (a : fft.Complex) (s : ℝ) :
    ofGo (a.MulScalar s) = (ofGo a).smul s := rfl

theorem ofGo_c0 : ofGo fft.c0 = swift.czero := rfl

theorem ofGo_wn (n : ℕ) : ofGo (fft.wn n) = swift.wn n := rfl

theorem evens_map_ofGo (arr : List fft.Complex) :
    swift.evens (arr.map ofGo) = (fft.evens arr).map ofGo := by
  rw [swift.evens, fft.evens, List.length_map, List.map_map]
  apply List.map_congr_left
  intro i _
  show (arr.map ofGo).getD (2 * i) swift.czero = ofGo (arr.getD (2 * i) fft.c0)
  rw [← ofGo_c0, List.getD_map]

theorem odds_map_ofGo (arr : List fft.Complex) :
    swift.odds (arr.map ofGo) = (fft.odds arr).map ofGo := by
  rw [swift.odds, fft.odds, List.length_map, List.map_map]
  apply List.map_congr_left
  intro i _
  show (arr.map ofGo).getD (2 * i + 1) swift.czero = ofGo (arr.getD (2 * i + 1) fft.c0)
  rw [← ofGo_c0, List.getD_map]

theorem combineLoop_map_ofGo (twiddle : fft.Complex) :
    ∀ (a0 a1 : List fft.Complex) (w : fft.Complex),
      swift.combineLoop (ofGo twiddle) (a0.map ofGo) (a1.map ofGo) (ofGo w) =
        ((fft.combineLoop twiddle a0 a1 w).1.map ofGo,
         (fft.combineLoop twiddle a0 a1 w).2.map ofGo)
  | [], a1, w => by cases a1 <;> simp [swift.combineLoop, fft.combineLoop]
  | p :: a0, [], w => by simp [swift.combineLoop, fft.combineLoop]
  | p :: a0, q :: a1, w => by
      have ih := combineLoop_map_ofGo twiddle a0 a1 (w.Mul twiddle)
      simp only [List.map_cons, swift.combineLoop, fft.combineLoop,
        ← ofGo_Mul, ← ofGo_Add, ← ofGo_Sub, ih]

theorem fftAux_map_ofGo :
    ∀ (fuel : ℕ) (arr : List fft.Complex),
      swift.fftAux fuel (arr.map ofGo) = (fft.fft fuel arr).map (List.map ofGo)
  | 0, arr => by rw [swift.fftAux, fft.fft]; rfl
  | fuel + 1, arr => by
      rw [swift.fftAux, fft.fft, List.length_map]
      by_cases h1 : arr.length = 1
      · rw [if_pos h1, if_pos h1, Option.map_some']
      · rw [if_neg h1, if_neg h1, evens_map_ofGo, odds_map_ofGo,
          fftAux_map_ofGo fuel (fft.evens arr), fftAux_map_ofGo fuel (fft.odds arr)]
        cases fft.fft fuel (fft.evens arr) with
        | none => rfl
        | some a0 =>
          cases fft.fft fuel (fft.odds arr) with
          | none => rfl
          | some a1 =>
            simp only [Option.map_some']
            show some _ = some _
            rw [← ofGo_wn, show (⟨1, 0⟩ : swift.Complex) = ofGo ⟨1, 0⟩ from rfl,
              combineLoop_map_ofGo]
            simp only [List.map_append, List.map_drop]

/-- C10: the Go `FFT` over `[]Complex` and the Swift `fft` over `[Complex]`
compute the same input-to-output mapping: on inputs equal under the
field-for-field translation `ofGo`, the two ports' outputs (and whether
they return at each recursion depth) are equal under the same translation. -/
theorem go_swift_same_transform (fuel : ℕ) (arr : List fft.Complex) :
    swift.fft fuel (arr.map ofGo) = (fft.FFT fuel arr).map (List.map ofGo) := by
  rw [swift.fft, fft.FFT, fftAux_map_ofGo, List.length_map]
  cases fft.fft fuel arr with
  | none => rfl
  | some mid =>
      simp only [Option.map_some', Option.map_some]
      rw [List.map_map, List.map_map]
      congr 1

namespace cli

/-- Numeric value of a decimal digit string, most significant digit first. -/
def digitsVal (ds : List Char) : ℕ :=
  ds.foldl (fun acc c => 10 * acc + (c.toNat - 48)) 0

/-- Modelled from the spec: the digits-and-range part of `strconv.Atoi`
(library code outside this repository) — reject an empty digit string, any
non-digit character, and values outside the signed 64-bit range. -/
def atoiCore (neg : Bool) (ds : List Char) : Option Int :=
  if ds = [] ∨ ¬ ds.all (fun c => c.isDigit) then none
  else
    let v : Int := if neg then -(digitsVal ds : Int) else (digitsVal ds : Int)
    if v < -(2 ^ 63) ∨ (2 ^ 63 - 1 : Int) < v then none else some v

/-- Modelled from the spec: `strconv.Atoi` — an optional leading sign
followed by decimal digits. -/
def atoi (s : String) : Option Int :=
  match s.data with
  | '+' :: ds => atoiCore false ds
  | '-' :: ds => atoiCore true ds
  | ds => atoiCore false ds

/-- Outcome of `main`: either a diagnostic printed to stderr followed by
`os.Exit(1)`, or a run of the pipeline with the computed element count `n`
(a 64-bit `int`, possibly overflowed). -/
inductive MainResult where
  | exitErr (msg : String)
  | run (n : Int)
deriving DecidableEq

/-- Two's-complement wrap to 64 bits: the semantics of Go's `int`
arithmetic on the 64-bit platforms the benchmark targets. -/
def wrap64 (x : Int) : Int := (x + 2 ^ 63) % 2 ^ 64 - 2 ^ 63

/-- Source: `n := 1 << uint(size)` at type `int`. -/
def shiftOne (size : ℕ) : Int := wrap64 (2 ^ size)

/-- Source: `func main()` of `main.go` up to the choice of `n`: the argument
validation, the two diagnostic messages and the computed count are exactly
those of the source. -/
def goMain (args : List String) : MainResult :=
  if args.length < 2 then
    .exitErr ("usage: " ++ args.getD 0 "" ++ " <size>")
  else
    match atoi (args.getD 1 "") with
    | none => .exitErr "invalid <size>; must be a non-negative integer"
    | some size =>
        if size < 0 then .exitErr "invalid <size>; must be a non-negative integer"
        else .run (shiftOne size.toNat)

/-- Source: `math.Round` — round to the nearest integer, half away from zero. -/
noncomputable def goRound (x : ℝ) : ℝ :=
  if x < 0 then -((⌊-x + 1 / 2⌋ : ℤ) : ℝ) else ((⌊x + 1 / 2⌋ : ℤ) : ℝ)

/-- Source: `func round(n float64) float64` — round to two decimal places. -/
noncomputable def round (n : ℝ) : ℝ := goRound (n * 100.0) / 100.0

/-- Source: `func generateInputs(len int) []f.Complex`. -/
noncomputable def generateInputs (len : ℕ) : List fft.Complex :=
  (List.range len).map fun (i : ℕ) =>
    ⟨round (1.0 * Real.cos (10.0 * ((i : ℝ) / (len : ℝ) * Real.pi)) +
        0.5 * Real.cos (25.0 * ((i : ℝ) / (len : ℝ) * Real.pi))),
     round (1.0 * Real.sin (10.0 * ((i : ℝ) / (len : ℝ) * Real.pi)) +
        0.5 * Real.sin (25.0 * ((i : ℝ) / (len : ℝ) * Real.pi)))⟩

@[simp] theorem generateInputs_length (n : ℕ) : (generateInputs n).length = n := by
  rw [generateInputs, List.length_map, List.length_range]

/-- The pipeline of the run branch: `signals := generateInputs(n);
f.FFT(signals)`, at recursion fuel `n`. -/
noncomputable def mainTransformed (n : ℕ) : Option (List fft.Complex) :=
  fft.FFT n (generateInputs n)

/-- C9 counterexample: with the valid argument "63" the harness reaches the
run branch, but the count it computes is the 64-bit overflow
`1 << 63 = -2^63`, not `2^63`: the claimed `n = 2^size` fails. -/
theorem goMain_size63_overflow :
    goMain ["fft", "63"] = MainResult.run (-(2 ^ 63)) ∧ (-(2 ^ 63) : Int) ≠ 2 ^ 63 := by
  constructor
  · decide
  · decide

/-- C9 (amended): the harness prints a diagnostic (the usage message when
the argument is missing, the invalid-size message when it fails to parse as
a signed 64-bit integer or is negative) and exits with status 1 exactly per
the source; otherwise it computes `n = 1 << size` in 64-bit `int`
arithmetic — equal to `2^size` exactly when `size ≤ 62` — and for those
sizes the run branch generates the inputs and invokes the transform, which
terminates with an output. -/
theorem goMain_spec (args : List String) :
    (args.length < 2 →
      goMain args = .exitErr ("usage: " ++ args.getD 0 "" ++ " <size>")) ∧
    (2 ≤ args.length → atoi (args.getD 1 "") = none →
      goMain args = .exitErr "invalid <size>; must be a non-negative integer") ∧
    (∀ size : Int, 2 ≤ args.length → atoi (args.getD 1 "") = some size → size < 0 →
      goMain args = .exitErr "invalid <size>; must be a non-negative integer") ∧
    (∀ size : Int, 2 ≤ args.length → atoi (args.getD 1 "") = some size → 0 ≤ size →
      goMain args = .run (shiftOne size.toNat) ∧
      (size.toNat ≤ 62 → shiftOne size.toNat = 2 ^ size.toNat ∧
        ∃ out, mainTransformed (2 ^ size.toNat) = some out)) := by
  refine ⟨?_, ?_, ?_, ?_⟩
  · intro h
    rw [goMain, if_pos h]
  · intro h hn
    simp only [goMain, if_neg (show ¬ args.length < 2 by omega), hn]
  · intro size h hs hneg
    simp only [goMain, if_neg (show ¬ args.length < 2 by omega), hs]
    rw [if_pos hneg]
  · intro size h hs hpos
    constructor
    · simp only [goMain, if_neg (show ¬ args.length < 2 by omega), hs]
      rw [if_neg (by omega)]
    · intro h62
      have hwrap : shiftOne size.toNat = 2 ^ size.toNat := by
        rw [shiftOne, wrap64]
        have hle : (2:ℤ) ^ size.toNat ≤ 2 ^ 62 := pow_le_pow_right (by norm_num) h62
        rw [Int.emod_eq_of_lt (by positivity) (by nlinarith [hle])]
        ring
      refine ⟨hwrap, ?_⟩
      rw [mainTransformed]
      obtain ⟨mid, hmid⟩ := fft.fft_some (2 ^ size.toNat) (generateInputs (2 ^ size.toNat))
        (by simp [Nat.one_le_two_pow]) (by simp)
      exact ⟨_, by rw [fft.FFT, hmid, Option.map_some']⟩

theorem goMain_spec_witness :
    goMain ["fft", "2"] = MainResult.run 4 ∧ ∃ out, mainTransformed 4 = some out := by
  have h := (goMain_spec ["fft", "2"]).2.2.2 2 (by norm_num) (by decide) (by norm_num)
  have h62 := h.2 (by norm_num)
  constructor
  · rw [h.1, h62.1]
    decide
  · have hout := h62.2
    norm_num at hout
    exact hout

end cli
